import Mathlib

/-!
Shallow embedding of the certificate collector in
src/certificates-api/dl_certs.py, together with theorems checking the
natural-language specification against it.

Byte strings are modelled as lists of natural numbers (one entry per byte).
The helper functions below reproduce the Python bytes operations used by the
source: splitting on a separator, substring containment, replace, a single
split with maxsplit 1, and strip of ASCII whitespace.  All definitions are
structurally recursive so that concrete inputs evaluate by rfl or decide.
-/

namespace DlCerts

/-- Byte string of an ASCII string literal (a Python bytes literal). -/
def bytesOf (s : String) : List Nat := s.toList.map Char.toNat

/-- The six ASCII whitespace bytes removed by Python bytes.strip with no
argument: space, tab, newline, carriage return, vertical tab, form feed. -/
def isSpaceByte (b : Nat) : Bool :=
  b = 32 || b = 9 || b = 10 || b = 13 || b = 11 || b = 12

/-- Python bytes.strip without argument: remove leading and trailing ASCII
whitespace bytes, touching nothing in the interior. -/
def stripBytes (l : List Nat) : List Nat :=
  ((l.dropWhile isSpaceByte).reverse.dropWhile isSpaceByte).reverse

/-- Python substring containment (needle in hay) for byte strings. -/
def containsSub (needle : List Nat) : List Nat → Bool
  | [] => needle.isEmpty
  | b :: rest => needle.isPrefixOf (b :: rest) || containsSub needle rest

/-- The bytes after the first occurrence of needle in hay, that is
Python hay.split(needle, 1)[1]; none when needle does not occur. -/
def afterFirst (needle : List Nat) : List Nat → Option (List Nat)
  | [] => if needle.isEmpty then some [] else none
  | b :: rest =>
      if needle.isPrefixOf (b :: rest) then some (List.drop needle.length (b :: rest))
      else afterFirst needle rest

/-- Worker for Python bytes.replace(old, new): a left-to-right scan replacing
every non-overlapping occurrence of old.  The skip counter consumes the
remaining bytes of an occurrence that was just replaced, keeping the
recursion structural. -/
def replaceGo (old new : List Nat) : List Nat → Nat → List Nat
  | [], _ => []
  | _ :: rest, skip + 1 => replaceGo old new rest skip
  | b :: rest, 0 =>
      if old.isPrefixOf (b :: rest) then new ++ replaceGo old new rest (old.length - 1)
      else b :: replaceGo old new rest 0

/-- Python bytes.replace(old, new) for a non-empty old. -/
def replaceSub (old new l : List Nat) : List Nat := replaceGo old new l 0

/-- Worker for Python bytes.split(sep): the skip counter consumes the tail of
a separator occurrence, and acc collects the current chunk in reverse. -/
def splitGo (needle : List Nat) : List Nat → Nat → List Nat → List (List Nat)
  | [], _, acc => [acc.reverse]
  | _ :: rest, skip + 1, acc => splitGo needle rest skip acc
  | b :: rest, 0, acc =>
      if needle.isPrefixOf (b :: rest) then
        acc.reverse :: splitGo needle rest (needle.length - 1) []
      else splitGo needle rest 0 (b :: acc)

/-- Python bytes.split(sep) for a non-empty separator sep. -/
def splitOnSub (needle l : List Nat) : List (List Nat) := splitGo needle l 0 []

/-- The section delimiter of the container format. -/
def bEnd : List Nat := bytesOf "--End"

/-- The lower-case header variant rewritten by parse_certs. -/
def bCtLower : List Nat := bytesOf "Content-type"

/-- The canonical header name. -/
def bCtCanon : List Nat := bytesOf "Content-Type"

/-- The canonical content-type marker searched for in each section. -/
def bMarker : List Nat := bytesOf "Content-Type: application/pkix-cert"

/-- The marker with the header name in the lower-case variant. -/
def bMarkerLower : List Nat := bytesOf "Content-type: application/pkix-cert"

/-- The part of the marker after the header name. -/
def bMarkerTail : List Nat := bytesOf ": application/pkix-cert"

/-- The segment a section would emit: bytes after the first marker occurrence
in the rewritten section, stripped of surrounding whitespace. -/
def sectionEmit (sec : List Nat) : List Nat :=
  stripBytes ((afterFirst bMarker (replaceSub bCtLower bCtCanon sec)).getD [])

/-- Whether a section of the container contributes a segment: after the
rewrite of the lower-case header variant it contains the marker, and the
stripped payload after the marker is non-empty. -/
def sectionQualifies (sec : List Nat) : Bool :=
  containsSub bMarker (replaceSub bCtLower bCtCanon sec) && !(sectionEmit sec).isEmpty

/-- parse_certs of dl_certs.py, lines 198-213, with the file content passed
directly as bytes: split the content on the delimiter; in each section
rewrite the lower-case header variant to the canonical one; if the section
contains the canonical marker, emit everything after it, stripped, provided
the result is non-empty. -/
def parse_certs (content : List Nat) : List (List Nat) :=
  (splitOnSub bEnd content).filterMap fun sec =>
    let sec2 := replaceSub bCtLower bCtCanon sec
    if containsSub bMarker sec2 then
      let cert := stripBytes ((afterFirst bMarker sec2).getD [])
      if cert.isEmpty then none else some cert
    else none

/-- Spec-side per-section emission, following the wording of the amended
container-splitter property: the segment for a section is the exact bytes
between the first content-type marker and the next delimiter, after the
occurrences of the lower-case header variant in them are rewritten to the
canonical form, with only leading and trailing whitespace removed. -/
def emittedSegment (sec : List Nat) : Option (List Nat) :=
  match afterFirst bMarker (replaceSub bCtLower bCtCanon sec) with
  | none => none
  | some rest => if stripBytes rest = [] then none else some (stripBytes rest)

/-- Spec-side qualification predicate, following the wording of the amended
qualification property: a section qualifies when it contains the marker with
the header name either canonical or in the exact all-lower-case variant, and
the stripped payload after the marker is non-empty. -/
def qualifies_spec (sec : List Nat) : Bool :=
  (containsSub bMarker sec || containsSub bMarkerLower sec) && !(sectionEmit sec).isEmpty

/-!
Key normalization and certificate field extraction.

The Python source dispatches on four concrete classes of the cryptography
library.  Per the design notes of the spec this is a closed tagged union:
each variant carries the data the source reads off the library object
(key size and SPKI encoding for RSA, curve name, curve bit size and the two
point coordinates for EC, the raw encoding for Ed25519 and Ed448).
-/

/-- A decoded public key object, the closed union of the four supported
algorithm families plus the unsupported case. -/
inductive PublicKey where
  | rsa (key_size : Nat) (spki_bytes : List Nat)
  | ec (curve_name : String) (curve_key_size : Nat) (x y : Nat)
  | ed25519 (raw_bytes : List Nat)
  | ed448 (raw_bytes : List Nat)
  | unknown
deriving DecidableEq

/-- Fixed-width big-endian encoding of a natural number, as produced by
Python int.to_bytes(width, big-endian) for values that fit the width. -/
def toBytesBE : Nat → Nat → List Nat
  | 0, _ => []
  | w + 1, n => toBytesBE w (n / 256) ++ [n % 256]

/-- get_public_key_info of dl_certs.py, lines 95-144.  Returns the tuple
(key_type, key_format, key_info, key_bytes); none models the ValueError
raised for an unsupported key type.  For EC the uncompressed point is built
by hand: the byte 4 followed by the x and y coordinates, each encoded
big-endian over ceil(curve_key_size / 8) bytes. -/
def get_public_key_info : PublicKey → Option (String × String × Option String × List Nat)
  | .ec name bits x y =>
      let key_size := (bits + 7) / 8
      some ("EC", "SEC1", some name, 4 :: (toBytesBE key_size x ++ toBytesBE key_size y))
  | .rsa bits spki => some ("RSA", "SPKI", some (toString bits), spki)
  | .ed25519 raw => some ("Ed25519", "RAW", none, raw)
  | .ed448 raw => some ("Ed448", "RAW", none, raw)
  | .unknown => none

/-- Upper-case hexadecimal digit for a value below 16. -/
def hexDigitUpper (n : Nat) : Char :=
  if n < 10 then Char.ofNat (48 + n) else Char.ofNat (55 + n)

/-- Fuel-driven digit list of the upper-case hexadecimal rendering, most
significant digit first.  Any fuel at least the value itself is enough. -/
def hexCharsFuel : Nat → Nat → List Char
  | 0, _ => []
  | fuel + 1, n =>
      if n = 0 then [] else hexCharsFuel fuel (n / 16) ++ [hexDigitUpper (n % 16)]

/-- Python format(n, upper-case hex): no 0x, no padding, and the single
digit 0 for zero. -/
def toUpperHex (n : Nat) : String :=
  if n = 0 then "0" else String.mk (hexCharsFuel n n)

/-- Lower-case hexadecimal digit for a value below 16. -/
def hexDigitLower (n : Nat) : Char :=
  if n < 10 then Char.ofNat (48 + n) else Char.ofNat (87 + n)

/-- The two lower-case hex digits of one byte. -/
def byteHexPair (b : Nat) : List Char := [hexDigitLower (b / 16), hexDigitLower (b % 16)]

/-- Python bytes.hex(): two lower-case hexadecimal digits per byte. -/
def bytesHex (l : List Nat) : String := String.mk ((l.map byteHexPair).flatten)

/-- What the source reads off a successfully decoded x509 certificate: its
public key object, the list of Common Name attribute values of subject and
issuer (in order; the source takes the first of each), the integer serial
number and the two validity timestamps (opaque here). -/
structure ParsedCert where
  public_key : PublicKey
  subject_common_names : List String
  issuer_common_names : List String
  serial_number : Nat
  not_valid_before : Nat
  not_valid_after : Nat

/-- One candidate certificate blob handed to parse_certificate: its raw DER
bytes together with the outcome of the external x509 DER decoder of the
cryptography library (none models a load_der_x509_certificate failure on
malformed DER). -/
structure CertBlob where
  raw : List Nat
  decoded : Option ParsedCert

/-- The key_info_dict built by parse_certificate. -/
structure KeyInfoDict where
  public_key : List Nat
  key_type : String
  key_format : String
  key_info : Option String

/-- The cert_fields dict built by parse_certificate. -/
structure CertFields where
  subject_name : String
  issuer_name : String
  serial_number : String
  not_valid_before : Nat
  not_valid_after : Nat

/-- parse_certificate of dl_certs.py, lines 146-196.  Any failure inside the
try block — malformed DER, unsupported key type, or a missing first Common
Name attribute on subject or issuer (an IndexError on the [0] access) — is
caught and surfaces as none, the Python pair (None, None). -/
def parse_certificate (blob : CertBlob) : Option (KeyInfoDict × CertFields) :=
  match blob.decoded with
  | none => none
  | some cert =>
      match get_public_key_info cert.public_key with
      | none => none
      | some (t, f, i, b) =>
          match cert.subject_common_names.head?, cert.issuer_common_names.head? with
          | some subj, some iss =>
              some ({ public_key := b, key_type := t, key_format := f, key_info := i },
                    { subject_name := subj, issuer_name := iss,
                      serial_number := toUpperHex cert.serial_number,
                      not_valid_before := cert.not_valid_before,
                      not_valid_after := cert.not_valid_after })
          | _, _ => none

/-!
Persistence model.

The SQLite database is modelled as two append-only row lists.  Failures of
the external database engine are modelled by an oracle on the index of the
execute call inside one provider unit (0 for the provider insert, counting
on through the certificate inserts, with the final index standing for the
commit).  Any such failure is caught in store_certs and answered by a
rollback, so the unit leaves the store untouched.
-/

/-- A row of the providers table. -/
structure ProviderRow where
  name : String
  trade_name : String
  original_filename : String

/-- A row of the certificates table. -/
structure CertRow where
  provider_id : Nat
  cert_content : List Nat
  public_key : List Nat
  key_type : String
  key_format : String
  key_info : Option String
  subject_name : String
  issuer_name : String
  serial_number : String
  not_valid_before : Nat
  not_valid_after : Nat
  cert_number : Nat

/-- The persisted store: the two tables, rows in insertion order. -/
structure Store where
  providers : List ProviderRow
  certificates : List CertRow

/-- One provider work item: the identity fields passed to store_certs, the
certificate blobs parsed from its container, and the failure oracle of the
database engine during this provider unit. -/
structure ProviderBatch where
  provider_name : String
  trade_name : String
  original_filename : String
  certificates : List CertBlob
  dbFail : Nat → Bool

/-- The certificates row built by the insert at lines 246-260. -/
def certRowOf (pid i : Nat) (blob : CertBlob) (pr : KeyInfoDict × CertFields) : CertRow :=
  { provider_id := pid, cert_content := blob.raw, public_key := pr.1.public_key,
    key_type := pr.1.key_type, key_format := pr.1.key_format, key_info := pr.1.key_info,
    subject_name := pr.2.subject_name, issuer_name := pr.2.issuer_name,
    serial_number := pr.2.serial_number, not_valid_before := pr.2.not_valid_before,
    not_valid_after := pr.2.not_valid_after, cert_number := i }

/-- Python enumerate(certificates, i). -/
def enumFrom (i : Nat) : List α → List (Nat × α)
  | [] => []
  | a :: rest => (i, a) :: enumFrom (i + 1) rest

/-- State threaded through the certificate loop of store_certs: the index of
the next execute call, the set of public-key hex encodings seen so far, the
1-based positions at which a duplicate-key warning was printed, and the
certificate rows inserted so far. -/
structure LoopState where
  execIndex : Nat
  seen : Finset String
  warnings : List Nat
  rows : List CertRow

/-- The certificate loop of store_certs, lines 233-260: parse each blob,
skip it when parsing failed, otherwise check the hex of the key bytes
against the seen set (warning on a hit, insertion into the set otherwise)
and insert the row; none models an SQL error, which aborts the unit. -/
def storeCertsLoop (fail : Nat → Bool) (pid : Nat) :
    List (Nat × CertBlob) → LoopState → Option LoopState
  | [], st => some st
  | (i, blob) :: rest, st =>
      match parse_certificate blob with
      | none => storeCertsLoop fail pid rest st
      | some pr =>
          let hex := bytesHex pr.1.public_key
          let st1 : LoopState :=
            if hex ∈ st.seen then { st with warnings := st.warnings ++ [i] }
            else { st with seen := insert hex st.seen }
          if fail st1.execIndex then none
          else
            storeCertsLoop fail pid rest
              { st1 with execIndex := st1.execIndex + 1,
                         rows := st1.rows ++ [certRowOf pid i blob pr] }

/-- Result of one store_certs call: the store after the unit, plus the
observable outputs of the run — the duplicate warnings printed and the
final seen set whose size is printed at line 264.  On a database error the
unit is rolled back and the store handed back unchanged. -/
structure StoreCertsResult where
  store : Store
  warnings : List Nat
  seen : Finset String

/-- store_certs of dl_certs.py, lines 217-274.  Execute 0 inserts the
provider row (its rowid is the next providers index), the loop inserts the
certificate rows, and a final execute stands for the commit; any database
failure is caught and answered with conn.rollback(), leaving the store
unchanged.  Stdout of a rolled-back unit is not modelled. -/
def store_certs (db : Store) (p : ProviderBatch) : StoreCertsResult :=
  if p.dbFail 0 then { store := db, warnings := [], seen := ∅ }
  else
    let pid := db.providers.length + 1
    match storeCertsLoop p.dbFail pid (enumFrom 1 p.certificates)
        { execIndex := 1, seen := ∅, warnings := [], rows := [] } with
    | none => { store := db, warnings := [], seen := ∅ }
    | some st =>
        if p.dbFail st.execIndex then { store := db, warnings := [], seen := ∅ }
        else
          { store :=
              { providers :=
                  db.providers ++ [⟨p.provider_name, p.trade_name, p.original_filename⟩],
                certificates := db.certificates ++ st.rows },
            warnings := st.warnings, seen := st.seen }

/-- Whether the provider unit of store_certs runs to a successful commit. -/
def provider_unit_ok (db : Store) (p : ProviderBatch) : Bool :=
  if p.dbFail 0 then false
  else
    match storeCertsLoop p.dbFail (db.providers.length + 1) (enumFrom 1 p.certificates)
        { execIndex := 1, seen := ∅, warnings := [], rows := [] } with
    | none => false
    | some st => !p.dbFail st.execIndex

/-- The provider loop of download_2ddoc_files, lines 302-327, restricted to
its store effect: each provider batch is handed to store_certs in turn, and
the run always continues with the next provider. -/
def process_providers (db : Store) : List ProviderBatch → Store
  | [] => db
  | p :: rest => process_providers (store_certs db p).store rest

/-- An oracle under which no database call fails. -/
def noFail : Nat → Bool := fun _ => false

/-- An oracle under which every database call fails. -/
def allFail : Nat → Bool := fun _ => true

/-- get_provider_name of dl_certs.py, lines 276-283.  The two arguments are
the English name and English trade name lookups: some holds the text when
the element is found, none models the find returning None, on which the
.text access raises and the bare except returns the fallback pair. -/
def get_provider_name (name_el trade_el : Option String) : String × String :=
  match name_el, trade_el with
  | some n, some t => (n, t)
  | _, _ => ("unknown_provider", "unknown_trade_name")

/-!
Spec-side helpers for the duplicate tracker and the batch characterization.
-/

/-- The enumerated hex encodings of the keys of the parseable blobs. -/
def pairHexes : List (Nat × CertBlob) → List (Nat × String) :=
  List.filterMap fun ib => (parse_certificate ib.2).map fun pr => (ib.1, bytesHex pr.1.public_key)

/-- The hex encodings of the canonical keys of the parseable blobs. -/
def certHexes (certs : List CertBlob) : List String :=
  certs.filterMap fun b => (parse_certificate b).map fun pr => bytesHex pr.1.public_key

/-- The canonical key encodings of the parseable blobs. -/
def certKeys (certs : List CertBlob) : List (List Nat) :=
  certs.filterMap fun b => (parse_certificate b).map fun pr => pr.1.public_key

/-- The rows the certificate loop inserts for a list of enumerated blobs. -/
def certRows (pid : Nat) : List (Nat × CertBlob) → List CertRow :=
  List.filterMap fun ib => (parse_certificate ib.2).map fun pr => certRowOf pid ib.1 ib.2 pr

/-- The positions at which the duplicate tracker warns, given a seen set and
the enumerated key hexes: a warning where the hex was seen before, an
insertion into the set otherwise. -/
def dupPositions (seen : Finset String) : List (Nat × String) → List Nat
  | [] => []
  | (i, h) :: rest =>
      if h ∈ seen then i :: dupPositions seen rest else dupPositions (insert h seen) rest

/-- A sample parseable blob (an Ed25519 key with raw encoding [k]), used to
instantiate theorems with hypotheses at concrete inputs. -/
def sampleBlob (k : Nat) : CertBlob :=
  { raw := [k],
    decoded := some
      { public_key := .ed25519 [k], subject_common_names := ["subject"],
        issuer_common_names := ["issuer"], serial_number := 255,
        not_valid_before := 0, not_valid_after := 1 } }

/-- The empty store. -/
def emptyStore : Store := { providers := [], certificates := [] }

/-!
Helper lemmas.
-/

theorem toBytesBE_length (w : Nat) : ∀ n, (toBytesBE w n).length = w := by
  induction w with
  | zero => intro n; rfl
  | succ w ih => intro n; simp [toBytesBE, ih]

theorem mem_of_stripBytes_flank (l : List Nat) :
    ∃ a b, l = a ++ stripBytes l ++ b ∧
      (∀ c ∈ a, isSpaceByte c = true) ∧ (∀ c ∈ b, isSpaceByte c = true) := by
  refine ⟨l.takeWhile isSpaceByte,
    ((l.dropWhile isSpaceByte).reverse.takeWhile isSpaceByte).reverse, ?_, ?_, ?_⟩
  · have hd : l.dropWhile isSpaceByte
        = stripBytes l ++ ((l.dropWhile isSpaceByte).reverse.takeWhile isSpaceByte).reverse := by
      calc l.dropWhile isSpaceByte
          = ((l.dropWhile isSpaceByte).reverse).reverse := (List.reverse_reverse _).symm
        _ = ((l.dropWhile isSpaceByte).reverse.takeWhile isSpaceByte ++
              (l.dropWhile isSpaceByte).reverse.dropWhile isSpaceByte).reverse := by
            rw [List.takeWhile_append_dropWhile]
        _ = stripBytes l ++ ((l.dropWhile isSpaceByte).reverse.takeWhile isSpaceByte).reverse := by
            rw [List.reverse_append]; rfl
    calc l = l.takeWhile isSpaceByte ++ l.dropWhile isSpaceByte :=
          (List.takeWhile_append_dropWhile _ _).symm
      _ = l.takeWhile isSpaceByte ++ (stripBytes l ++
            ((l.dropWhile isSpaceByte).reverse.takeWhile isSpaceByte).reverse) :=
          congrArg _ hd
      _ = l.takeWhile isSpaceByte ++ stripBytes l ++
            ((l.dropWhile isSpaceByte).reverse.takeWhile isSpaceByte).reverse :=
          (List.append_assoc _ _ _).symm
  · intro c hc; exact List.mem_takeWhile_imp hc
  · intro c hc
    rw [List.mem_reverse] at hc
    exact List.mem_takeWhile_imp hc

theorem containsSub_eq_isSome_afterFirst (needle : List Nat) :
    ∀ hay, containsSub needle hay = (afterFirst needle hay).isSome := by
  intro hay
  induction hay with
  | nil =>
      by_cases h : needle.isEmpty <;> simp [containsSub, afterFirst, h]
  | cons b rest ih =>
      by_cases h : needle.isPrefixOf (b :: rest) <;>
        simp [containsSub, afterFirst, h, ih]

theorem replaceGo_skip (old new : List Nat) :
    ∀ (l : List Nat) (k : Nat), replaceGo old new l k = replaceGo old new (l.drop k) 0 := by
  intro l
  induction l with
  | nil => intro k; cases k <;> rfl
  | cons b rest ih =>
      intro k
      cases k with
      | zero => rfl
      | succ k => simpa [replaceGo] using ih k

theorem replaceSub_nil (old new : List Nat) : replaceSub old new [] = [] := rfl

theorem replaceSub_cons (old new : List Nat) (b : Nat) (rest : List Nat) :
    replaceSub old new (b :: rest) =
      if old.isPrefixOf (b :: rest) then
        new ++ replaceSub old new (rest.drop (old.length - 1))
      else b :: replaceSub old new rest := by
  show replaceGo old new (b :: rest) 0 = _
  rw [replaceGo]
  by_cases h : old.isPrefixOf (b :: rest) <;> simp [h, replaceGo_skip, replaceSub]

theorem isPrefixOf_append_cancel (u k z : List Nat) :
    (u ++ k).isPrefixOf (u ++ z) = k.isPrefixOf z := by
  induction u with
  | nil => rfl
  | cons a u ih => simp [List.isPrefixOf, ih]

theorem bCtLower_cons : bCtLower = 67 :: bytesOf "ontent-type" := by decide

theorem bCtCanon_cons : bCtCanon = 67 :: bytesOf "ontent-Type" := by decide

theorem bMarker_append : bMarker = bCtCanon ++ bMarkerTail := by decide

theorem bMarker_cons : bMarker = 67 :: bytesOf "ontent-Type: application/pkix-cert" := by decide

theorem bMarkerLower_append : bMarkerLower = bCtLower ++ bMarkerTail := by decide

theorem not_mem_bMarkerTail : (67 : Nat) ∉ bMarkerTail := by decide

theorem not_mem_ctailC : (67 : Nat) ∉ bytesOf "ontent-Type" := by decide

theorem not_mem_ctailL : (67 : Nat) ∉ bytesOf "ontent-type" := by decide

theorem not_mem_bMarkerRest : (67 : Nat) ∉ bytesOf "ontent-Type: application/pkix-cert" := by
  decide

theorem bCtLower_length : bCtLower.length = 12 := by decide

/-- A replaced occurrence starts with the byte 67; hence a prefix free of
that byte is unaffected by the rewrite of the lower-case header variant. -/
theorem isPrefixOf_replaceSub :
    ∀ (n : Nat) (x : List Nat), x.length ≤ n → ∀ w : List Nat, (67 : Nat) ∉ w →
      w.isPrefixOf (replaceSub bCtLower bCtCanon x) = w.isPrefixOf x := by
  intro n
  induction n with
  | zero =>
      intro x hx w _
      have hxnil : x = [] := List.eq_nil_of_length_eq_zero (Nat.le_zero.mp hx)
      subst hxnil; rfl
  | succ n ih =>
      intro x hx w hw
      cases x with
      | nil => rfl
      | cons b rest =>
          rw [replaceSub_cons]
          by_cases hp : bCtLower.isPrefixOf (b :: rest)
          · rw [if_pos hp]
            have hb : b = 67 := by
              rw [bCtLower_cons] at hp
              simp only [List.isPrefixOf, Bool.and_eq_true, beq_iff_eq] at hp
              exact hp.1.symm
            cases w with
            | nil => simp [List.isPrefixOf]
            | cons c w2 =>
                have hc : ¬(c = 67) := fun h => hw (h ▸ List.mem_cons_self c w2)
                have hcb : (c == 67) = false := by
                  simp only [beq_eq_false_iff_ne, ne_eq]; exact hc
                subst hb
                rw [bCtCanon_cons]
                simp [List.isPrefixOf, hcb]
          · rw [if_neg hp]
            cases w with
            | nil => simp [List.isPrefixOf]
            | cons c w2 =>
                have hw2 : (67 : Nat) ∉ w2 := fun h => hw (List.mem_cons_of_mem c h)
                have hrest : rest.length ≤ n := Nat.le_of_succ_le_succ hx
                simp [List.isPrefixOf, ih rest hrest w2 hw2]

/-- Occurrences of a needle starting with byte c cannot start inside a block
free of c, so containment skips over such a block. -/
theorem containsSub_append_skip (c : Nat) (m : List Nat) :
    ∀ (u z : List Nat), c ∉ u → containsSub (c :: m) (u ++ z) = containsSub (c :: m) z := by
  intro u
  induction u with
  | nil => intro z _; rfl
  | cons a u ih =>
      intro z hcu
      have ha : ¬(c = a) := fun h => hcu (h ▸ List.mem_cons_self a u)
      have hu : c ∉ u := fun h => hcu (List.mem_cons_of_mem a h)
      simp [containsSub, List.isPrefixOf, beq_iff_eq, ha, ih z hu]

theorem bMarker_not_prefixOf_lower_append (r : List Nat) :
    bMarker.isPrefixOf (bCtLower ++ r) = false := by
  by_contra h
  rw [Bool.not_eq_false, List.isPrefixOf_iff_prefix] at h
  have h1 : bMarker = (bCtLower ++ r).take bMarker.length := List.prefix_iff_eq_take.mp h
  have hlen : bMarker.length = 35 := by decide
  rw [hlen] at h1
  have h2 : bMarker.take 12 = (bCtLower ++ r).take 12 := by
    conv_lhs => rw [h1]
    rw [List.take_take]
    norm_num
  have h3 : (bCtLower ++ r).take 12 = bCtLower := by
    conv_lhs => rw [← bCtLower_length]
    exact List.take_left _ _
  have h4 : bMarker.take 12 = bCtCanon := by decide
  rw [h4, h3] at h2
  exact absurd h2 (by decide)

theorem containsSub_cons (needle : List Nat) (b : Nat) (t : List Nat) :
    containsSub needle (b :: t) = (needle.isPrefixOf (b :: t) || containsSub needle t) := rfl

theorem bMarkerLower_cons :
    bMarkerLower = 67 :: bytesOf "ontent-type: application/pkix-cert" := by decide

/-- Containment of the canonical marker right after a canonical header block. -/
theorem containsSub_bMarker_canon_append (z : List Nat) :
    containsSub bMarker (bCtCanon ++ z) =
      (bMarkerTail.isPrefixOf z || containsSub bMarker z) := by
  have hpref : bMarker.isPrefixOf (bCtCanon ++ z) = bMarkerTail.isPrefixOf z := by
    conv_lhs => rw [bMarker_append]
    exact isPrefixOf_append_cancel _ _ _
  have hcont : containsSub bMarker (bytesOf "ontent-Type" ++ z) = containsSub bMarker z := by
    rw [bMarker_cons]
    exact containsSub_append_skip 67 _ _ _ not_mem_ctailC
  have e : bCtCanon ++ z = 67 :: (bytesOf "ontent-Type" ++ z) := by
    rw [bCtCanon_cons]; rfl
  rw [e, containsSub_cons, ← e, hpref, hcont]

/-- Containment of the canonical marker right after a lower-case header
block: the block can contribute nothing. -/
theorem containsSub_bMarker_lower_append (z : List Nat) :
    containsSub bMarker (bCtLower ++ z) = containsSub bMarker z := by
  have hpref := bMarker_not_prefixOf_lower_append z
  have hcont : containsSub bMarker (bytesOf "ontent-type" ++ z) = containsSub bMarker z := by
    rw [bMarker_cons]
    exact containsSub_append_skip 67 _ _ _ not_mem_ctailL
  have e : bCtLower ++ z = 67 :: (bytesOf "ontent-type" ++ z) := by
    rw [bCtLower_cons]; rfl
  rw [e, containsSub_cons, ← e, hpref, hcont, Bool.false_or]

/-- Containment of the lower-case marker right after a lower-case header
block. -/
theorem containsSub_bMarkerLower_lower_append (z : List Nat) :
    containsSub bMarkerLower (bCtLower ++ z) =
      (bMarkerTail.isPrefixOf z || containsSub bMarkerLower z) := by
  have hpref : bMarkerLower.isPrefixOf (bCtLower ++ z) = bMarkerTail.isPrefixOf z := by
    conv_lhs => rw [bMarkerLower_append]
    exact isPrefixOf_append_cancel _ _ _
  have hcont : containsSub bMarkerLower (bytesOf "ontent-type" ++ z) =
      containsSub bMarkerLower z := by
    rw [bMarkerLower_cons]
    exact containsSub_append_skip 67 _ _ _ not_mem_ctailL
  have e : bCtLower ++ z = 67 :: (bytesOf "ontent-type" ++ z) := by
    rw [bCtLower_cons]; rfl
  rw [e, containsSub_cons, ← e, hpref, hcont]

/-- Containment of the canonical marker after the header rewrite is exactly
containment of the canonical or the lower-case marker before it. -/
theorem containsSub_bMarker_replaceSub :
    ∀ (n : Nat) (x : List Nat), x.length ≤ n →
      containsSub bMarker (replaceSub bCtLower bCtCanon x) =
        (containsSub bMarker x || containsSub bMarkerLower x) := by
  intro n
  induction n with
  | zero =>
      intro x hx
      have hxnil : x = [] := List.eq_nil_of_length_eq_zero (Nat.le_zero.mp hx)
      subst hxnil; rfl
  | succ n ih =>
      intro x hx
      cases x with
      | nil => rfl
      | cons b rest =>
          rw [replaceSub_cons]
          by_cases hp : bCtLower.isPrefixOf (b :: rest)
          · rw [if_pos hp, bCtLower_length]
            simp only [show (12 : Nat) - 1 = 11 from rfl]
            have hsplit : b :: rest = bCtLower ++ rest.drop 11 := by
              rw [List.isPrefixOf_iff_prefix] at hp
              have h1 : bCtLower = (b :: rest).take 12 := by
                rw [List.prefix_iff_eq_take.mp hp, bCtLower_length]
              conv_lhs => rw [← List.take_append_drop 12 (b :: rest)]
              rw [← h1]
              rfl
            have hdrop : (rest.drop 11).length ≤ n := by
              have h1 : rest.length ≤ n := Nat.le_of_succ_le_succ hx
              have h2 : (List.drop 11 rest).length ≤ rest.length := by simp
              exact le_trans h2 h1
            rw [hsplit, containsSub_bMarker_canon_append,
              isPrefixOf_replaceSub n (rest.drop 11) hdrop bMarkerTail not_mem_bMarkerTail,
              ih (rest.drop 11) hdrop, containsSub_bMarker_lower_append,
              containsSub_bMarkerLower_lower_append]
            cases bMarkerTail.isPrefixOf (rest.drop 11) <;>
              cases containsSub bMarker (rest.drop 11) <;>
                cases containsSub bMarkerLower (rest.drop 11) <;> rfl
          · rw [if_neg hp]
            have hrest : rest.length ≤ n := Nat.le_of_succ_le_succ hx
            have hML : bMarkerLower.isPrefixOf (b :: rest) = false := by
              by_contra hml
              rw [Bool.not_eq_false, List.isPrefixOf_iff_prefix] at hml
              have hlow : bCtLower <+: b :: rest :=
                List.IsPrefix.trans ⟨bMarkerTail, bMarkerLower_append.symm⟩ hml
              exact hp (List.isPrefixOf_iff_prefix.mpr hlow)
            have hM : bMarker.isPrefixOf (b :: replaceSub bCtLower bCtCanon rest) =
                bMarker.isPrefixOf (b :: rest) := by
              by_cases hb : b = 67
              · subst hb
                rw [bMarker_cons]
                simp only [List.isPrefixOf, beq_self_eq_true, Bool.true_and]
                exact isPrefixOf_replaceSub n rest hrest _ not_mem_bMarkerRest
              · have hb2 : ((67 : Nat) == b) = false := by
                  simp only [beq_eq_false_iff_ne, ne_eq]
                  exact fun h => hb h.symm
                rw [bMarker_cons]
                simp [List.isPrefixOf, hb2]
            rw [containsSub_cons, hM, ih rest hrest, containsSub_cons bMarker b rest,
              containsSub_cons bMarkerLower b rest, hML]
            cases bMarker.isPrefixOf (b :: rest) <;> cases containsSub bMarker rest <;>
              cases containsSub bMarkerLower rest <;> rfl

theorem containsSub_replace (x : List Nat) :
    containsSub bMarker (replaceSub bCtLower bCtCanon x) =
      (containsSub bMarker x || containsSub bMarkerLower x) :=
  containsSub_bMarker_replaceSub x.length x le_rfl

/-- The per-section body of parse_certs, as a guard plus an emission. -/
theorem parse_certs_body_eq (sec : List Nat) :
    (let sec2 := replaceSub bCtLower bCtCanon sec
     if containsSub bMarker sec2 then
       let cert := stripBytes ((afterFirst bMarker sec2).getD [])
       if cert.isEmpty then none else some cert
     else none) =
      if sectionQualifies sec then some (sectionEmit sec) else none := by
  show (if containsSub bMarker (replaceSub bCtLower bCtCanon sec) then
      if (sectionEmit sec).isEmpty then none else some (sectionEmit sec)
    else none) = _
  by_cases h1 : containsSub bMarker (replaceSub bCtLower bCtCanon sec)
  · by_cases h2 : (sectionEmit sec).isEmpty <;>
      simp [sectionQualifies, h1, h2]
  · simp [sectionQualifies, h1]

/-- The per-section body of parse_certs equals the spec-side emission. -/
theorem parse_certs_body_eq_emitted (sec : List Nat) :
    (let sec2 := replaceSub bCtLower bCtCanon sec
     if containsSub bMarker sec2 then
       let cert := stripBytes ((afterFirst bMarker sec2).getD [])
       if cert.isEmpty then none else some cert
     else none) = emittedSegment sec := by
  show (if containsSub bMarker (replaceSub bCtLower bCtCanon sec) then
      if (stripBytes ((afterFirst bMarker (replaceSub bCtLower bCtCanon sec)).getD [])).isEmpty
      then none
      else some (stripBytes ((afterFirst bMarker (replaceSub bCtLower bCtCanon sec)).getD []))
    else none) = _
  rw [emittedSegment, containsSub_eq_isSome_afterFirst]
  cases haf : afterFirst bMarker (replaceSub bCtLower bCtCanon sec) with
  | none => simp
  | some rest =>
      simp only [Option.isSome_some, if_true, Option.getD_some]
      by_cases h2 : stripBytes rest = [] <;> simp [h2, List.isEmpty_iff]

theorem parse_certs_eq_filter_map (content : List Nat) :
    parse_certs content = ((splitOnSub bEnd content).filter sectionQualifies).map sectionEmit := by
  have h1 : parse_certs content = (splitOnSub bEnd content).filterMap
      fun sec => if sectionQualifies sec then some (sectionEmit sec) else none := by
    show (splitOnSub bEnd content).filterMap _ = _
    exact List.filterMap_congr fun sec _ => parse_certs_body_eq sec
  rw [h1]
  induction splitOnSub bEnd content with
  | nil => rfl
  | cons sec rest ih =>
      rw [List.filterMap_cons, List.filter_cons]
      by_cases h : sectionQualifies sec <;> simp [h, ih]

theorem parse_certs_eq_filterMap_emitted (content : List Nat) :
    parse_certs content = (splitOnSub bEnd content).filterMap emittedSegment := by
  show (splitOnSub bEnd content).filterMap _ = _
  exact List.filterMap_congr fun sec _ => parse_certs_body_eq_emitted sec

/-- The qualification test of the code agrees with the spec-side one: only
the canonical and the all-lower-case header variants are recognized. -/
theorem sectionQualifies_eq_qualifies_spec (sec : List Nat) :
    sectionQualifies sec = qualifies_spec sec := by
  rw [sectionQualifies, qualifies_spec, containsSub_replace]

/-- Characterization of the certificate loop under a failure-free database:
it always succeeds, counts one execute per parsed certificate, accumulates
the seen set as the union with all key hexes, warns exactly at the duplicate
positions, and appends one row per parsed certificate. -/
theorem storeCertsLoop_noFail (pid : Nat) :
    ∀ (l : List (Nat × CertBlob)) (st : LoopState),
      storeCertsLoop noFail pid l st = some
        ⟨st.execIndex + (pairHexes l).length,
         st.seen ∪ ((pairHexes l).map Prod.snd).toFinset,
         st.warnings ++ dupPositions st.seen (pairHexes l),
         st.rows ++ certRows pid l⟩ := by
  intro l
  induction l with
  | nil =>
      intro st
      show some st = _
      simp [pairHexes, certRows, dupPositions]
  | cons ib rest ih =>
      obtain ⟨i, blob⟩ := ib
      intro st
      cases hp : parse_certificate blob with
      | none =>
          have e1 : pairHexes ((i, blob) :: rest) = pairHexes rest := by
            apply List.filterMap_cons_none
            simp [hp]
          have e2 : certRows pid ((i, blob) :: rest) = certRows pid rest := by
            apply List.filterMap_cons_none
            simp [hp]
          rw [e1, e2]
          simp only [storeCertsLoop, hp]
          exact ih st
      | some pr =>
          have e1 : pairHexes ((i, blob) :: rest) =
              (i, bytesHex pr.1.public_key) :: pairHexes rest := by
            apply List.filterMap_cons_some
            simp [hp]
          have e2 : certRows pid ((i, blob) :: rest) =
              certRowOf pid i blob pr :: certRows pid rest := by
            apply List.filterMap_cons_some
            simp [hp]
          rw [e1, e2]
          simp only [storeCertsLoop, hp, noFail, Bool.false_eq_true, if_false]
          by_cases hmem : bytesHex pr.1.public_key ∈ st.seen
          · simp only [hmem, if_true]
            rw [ih]
            simp only [Option.some.injEq, LoopState.mk.injEq]
            refine ⟨by simp only [List.length_cons]; omega, ?_, ?_, by simp⟩
            · show st.seen ∪ _ = _
              rw [List.map_cons, List.toFinset_cons, Finset.union_insert,
                Finset.insert_eq_self.mpr (Finset.mem_union_left _ hmem)]
            · show (st.warnings ++ [i]) ++ dupPositions st.seen (pairHexes rest) = _
              rw [dupPositions, if_pos hmem]
              simp
          · simp only [hmem, if_false]
            rw [ih]
            simp only [Option.some.injEq, LoopState.mk.injEq]
            refine ⟨by simp only [List.length_cons]; omega, ?_, ?_, by simp⟩
            · show insert (bytesHex pr.1.public_key) st.seen ∪ _ = _
              rw [List.map_cons, List.toFinset_cons, Finset.insert_union,
                Finset.union_insert]
            · show st.warnings ++ dupPositions (insert (bytesHex pr.1.public_key) st.seen)
                  (pairHexes rest) = _
              rw [dupPositions, if_neg hmem]

/-- Characterization of a full failure-free store_certs call. -/
theorem store_certs_noFail (db : Store) (nm tn fn : String) (certs : List CertBlob) :
    store_certs db ⟨nm, tn, fn, certs, noFail⟩ =
      { store := { providers := db.providers ++ [⟨nm, tn, fn⟩],
                   certificates :=
                     db.certificates ++ certRows (db.providers.length + 1) (enumFrom 1 certs) },
        warnings := dupPositions ∅ (pairHexes (enumFrom 1 certs)),
        seen := ((pairHexes (enumFrom 1 certs)).map Prod.snd).toFinset } := by
  show (if noFail 0 = true then _ else _) = _
  simp only [noFail, Bool.false_eq_true, if_false]
  rw [storeCertsLoop_noFail]
  simp

theorem pairHexes_map_snd (certs : List CertBlob) :
    ∀ i, (pairHexes (enumFrom i certs)).map Prod.snd = certHexes certs := by
  induction certs with
  | nil => intro i; rfl
  | cons b rest ih =>
      intro i
      cases hp : parse_certificate b with
      | none =>
          have e1 : pairHexes (enumFrom i (b :: rest)) = pairHexes (enumFrom (i + 1) rest) := by
            apply List.filterMap_cons_none
            simp [hp]
          have e2 : certHexes (b :: rest) = certHexes rest := by
            apply List.filterMap_cons_none
            simp [hp]
          rw [e1, e2, ih]
      | some pr =>
          have e1 : pairHexes (enumFrom i (b :: rest)) =
              (i, bytesHex pr.1.public_key) :: pairHexes (enumFrom (i + 1) rest) := by
            apply List.filterMap_cons_some
            simp [hp]
          have e2 : certHexes (b :: rest) = bytesHex pr.1.public_key :: certHexes rest := by
            apply List.filterMap_cons_some
            simp [hp]
          rw [e1, List.map_cons, e2, ih]

theorem certHexes_eq_map_bytesHex (certs : List CertBlob) :
    certHexes certs = (certKeys certs).map bytesHex := by
  rw [certHexes, certKeys, List.map_filterMap]
  apply List.filterMap_congr
  intro b _
  cases parse_certificate b <;> rfl

theorem hexDigitLower_inj : ∀ a < 16, ∀ b < 16, hexDigitLower a = hexDigitLower b → a = b := by
  decide

theorem byteHexPair_inj : ∀ a < 256, ∀ b < 256, byteHexPair a = byteHexPair b → a = b := by
  intro a ha b hb h
  simp only [byteHexPair, List.cons.injEq, and_true] at h
  have hd1 : a / 16 < 16 := by omega
  have hd2 : b / 16 < 16 := by omega
  have hm1 : a % 16 < 16 := Nat.mod_lt _ (by norm_num)
  have hm2 : b % 16 < 16 := Nat.mod_lt _ (by norm_num)
  have e1 := hexDigitLower_inj _ hd1 _ hd2 h.1
  have e2 := hexDigitLower_inj _ hm1 _ hm2 h.2
  omega

theorem flatten_byteHexPair_inj :
    ∀ (k1 : List Nat), (∀ x ∈ k1, x < 256) → ∀ (k2 : List Nat), (∀ x ∈ k2, x < 256) →
      (k1.map byteHexPair).flatten = (k2.map byteHexPair).flatten → k1 = k2 := by
  intro k1
  induction k1 with
  | nil =>
      intro _ k2 _ h
      cases k2 with
      | nil => rfl
      | cons b l2 => simp [byteHexPair] at h
  | cons a l1 ih =>
      intro h1 k2 h2 h
      cases k2 with
      | nil => simp [byteHexPair] at h
      | cons b l2 =>
          simp only [List.map_cons, List.flatten_cons, byteHexPair, List.cons_append,
            List.nil_append, List.cons.injEq] at h
          obtain ⟨e1, e2, hrest⟩ := h
          have ha : a < 256 := h1 a (List.mem_cons_self a l1)
          have hb : b < 256 := h2 b (List.mem_cons_self b l2)
          have hab : a = b := by
            have hd1 : a / 16 < 16 := by omega
            have hd2 : b / 16 < 16 := by omega
            have hm1 : a % 16 < 16 := Nat.mod_lt _ (by norm_num)
            have hm2 : b % 16 < 16 := Nat.mod_lt _ (by norm_num)
            have q1 := hexDigitLower_inj _ hd1 _ hd2 e1
            have q2 := hexDigitLower_inj _ hm1 _ hm2 e2
            omega
          have htail : l1 = l2 :=
            ih (fun x hx => h1 x (List.mem_cons_of_mem a hx)) l2
              (fun x hx => h2 x (List.mem_cons_of_mem b hx)) hrest
          rw [hab, htail]

/-- The hex encoding of byte lists is injective on genuine byte values, so
the seen set of hex strings counts exactly the distinct key encodings. -/
theorem bytesHex_inj (k1 k2 : List Nat) (h1 : ∀ x ∈ k1, x < 256) (h2 : ∀ x ∈ k2, x < 256)
    (h : bytesHex k1 = bytesHex k2) : k1 = k2 := by
  have hdata := congrArg String.data h
  simp only [bytesHex] at hdata
  exact flatten_byteHexPair_inj k1 h1 k2 h2 hdata

theorem dupPositions_nil_of_nodup (l : List (Nat × String)) :
    ∀ seen : Finset String, (l.map Prod.snd).Nodup → (∀ p ∈ l, p.2 ∉ seen) →
      dupPositions seen l = [] := by
  induction l with
  | nil => intro seen _ _; rfl
  | cons p rest ih =>
      intro seen hnd hdisj
      obtain ⟨i, h⟩ := p
      rw [dupPositions, if_neg (hdisj (i, h) (List.mem_cons_self _ _))]
      rw [List.map_cons, List.nodup_cons] at hnd
      apply ih _ hnd.2
      intro q hq
      rw [Finset.mem_insert]
      push_neg
      constructor
      · intro he
        apply hnd.1
        rw [← he]
        exact List.mem_map.mpr ⟨q, hq, rfl⟩
      · exact hdisj q (List.mem_cons_of_mem _ hq)

theorem hexCharsFuel_zero : ∀ fuel, hexCharsFuel fuel 0 = [] := by
  intro fuel; cases fuel <;> rfl

/-- The upper-case hexadecimal alphabet. -/
theorem hexDigitUpper_mem : ∀ m < 16,
    hexDigitUpper m ∈ ['0', '1', '2', '3', '4', '5', '6', '7', '8', '9',
      'A', 'B', 'C', 'D', 'E', 'F'] := by decide

theorem hexDigitUpper_ne_zero : ∀ m < 16, 0 < m → hexDigitUpper m ≠ '0' := by decide

theorem hexCharsFuel_mem (fuel : Nat) : ∀ n, ∀ c ∈ hexCharsFuel fuel n,
    c ∈ ['0', '1', '2', '3', '4', '5', '6', '7', '8', '9',
      'A', 'B', 'C', 'D', 'E', 'F'] := by
  induction fuel with
  | zero => intro n c hc; simp [hexCharsFuel] at hc
  | succ fuel ih =>
      intro n c hc
      by_cases hn : n = 0
      · simp [hexCharsFuel, hn] at hc
      · rw [hexCharsFuel, if_neg hn] at hc
        rcases List.mem_append.mp hc with h | h
        · exact ih _ c h
        · rw [List.mem_singleton] at h
          exact h ▸ hexDigitUpper_mem _ (Nat.mod_lt _ (by norm_num))

theorem hexCharsFuel_head (fuel : Nat) : ∀ n, 0 < n → n ≤ fuel →
    hexCharsFuel fuel n ≠ [] ∧ (hexCharsFuel fuel n).head? ≠ some '0' := by
  induction fuel with
  | zero => intro n hn hle; omega
  | succ fuel ih =>
      intro n hn hle
      have hne : ¬(n = 0) := by omega
      rw [hexCharsFuel, if_neg hne]
      by_cases hq : n / 16 = 0
      · rw [hq, hexCharsFuel_zero, List.nil_append]
        have hlt : n < 16 := by omega
        have hmod : n % 16 = n := Nat.mod_eq_of_lt hlt
        refine ⟨by simp, ?_⟩
        rw [List.head?_cons, hmod]
        intro h
        exact hexDigitUpper_ne_zero n hlt hn (Option.some.inj h)
      · have hq2 : 0 < n / 16 := Nat.pos_of_ne_zero hq
        have hlt : n / 16 < n := Nat.div_lt_self hn (by norm_num)
        have hle2 : n / 16 ≤ fuel := by omega
        obtain ⟨hne2, hhd⟩ := ih (n / 16) hq2 hle2
        constructor
        · simp [hne2]
        · rw [List.head?_append]
          cases hh : (hexCharsFuel fuel (n / 16)).head? with
          | none => exact absurd (List.head?_eq_none_iff.mp hh) hne2
          | some c =>
              rw [hh] at hhd
              simpa [Option.or] using fun he => hhd (by rw [he])

theorem toUpperHex_255 : toUpperHex 255 = "FF" := by decide

theorem toUpperHex_head_ne_zero (n : Nat) (hn : 0 < n) :
    (toUpperHex n).data.head? ≠ some '0' := by
  rw [toUpperHex, if_neg (by omega)]
  exact (hexCharsFuel_head n n hn le_rfl).2

theorem toUpperHex_chars (n : Nat) : ∀ c ∈ (toUpperHex n).data,
    c ∈ ['0', '1', '2', '3', '4', '5', '6', '7', '8', '9',
      'A', 'B', 'C', 'D', 'E', 'F'] := by
  rw [toUpperHex]
  by_cases hn : n = 0
  · rw [if_pos hn]; decide
  · rw [if_neg hn]
    exact hexCharsFuel_mem n n

theorem list_toFinset_map {α β : Type} [DecidableEq α] [DecidableEq β] (f : α → β) :
    ∀ l : List α, (l.map f).toFinset = l.toFinset.image f := by
  intro l
  induction l with
  | nil => simp
  | cons a t ih => simp [ih]

theorem certHexes_length (l : List CertBlob)
    (h : ∀ b ∈ l, (parse_certificate b).isSome = true) :
    (certHexes l).length = l.length := by
  induction l with
  | nil => rfl
  | cons b rest ih =>
      cases hp : parse_certificate b with
      | none =>
          have := h b (List.mem_cons_self b rest)
          rw [hp] at this
          exact absurd this (by simp)
      | some pr =>
          have e : certHexes (b :: rest) = bytesHex pr.1.public_key :: certHexes rest := by
            apply List.filterMap_cons_some
            simp [hp]
          rw [e, List.length_cons, ih fun x hx => h x (List.mem_cons_of_mem b hx)]
          rfl

theorem certRows_length (pid : Nat) (l : List CertBlob)
    (h : ∀ b ∈ l, (parse_certificate b).isSome = true) :
    ∀ i, (certRows pid (enumFrom i l)).length = l.length := by
  induction l with
  | nil => intro i; rfl
  | cons b rest ih =>
      intro i
      cases hp : parse_certificate b with
      | none =>
          have := h b (List.mem_cons_self b rest)
          rw [hp] at this
          exact absurd this (by simp)
      | some pr =>
          have e : certRows pid (enumFrom i (b :: rest)) =
              certRowOf pid i b pr :: certRows pid (enumFrom (i + 1) rest) := by
            apply List.filterMap_cons_some
            simp [hp]
          rw [e, List.length_cons, ih (fun x hx => h x (List.mem_cons_of_mem b hx)) (i + 1)]
          rfl

theorem store_certs_store_of_fail (db : Store) (p : ProviderBatch)
    (h : provider_unit_ok db p = false) : (store_certs db p).store = db := by
  unfold provider_unit_ok at h
  unfold store_certs
  by_cases h0 : p.dbFail 0
  · rw [if_pos h0]
  · rw [if_neg h0]
    rw [if_neg h0] at h
    cases hl : storeCertsLoop p.dbFail (db.providers.length + 1) (enumFrom 1 p.certificates)
        { execIndex := 1, seen := ∅, warnings := [], rows := [] } with
    | none => simp only [hl]
    | some st =>
        simp only [hl] at h ⊢
        rw [Bool.not_eq_false'] at h
        rw [if_pos h]

theorem store_certs_store_of_ok (db : Store) (p : ProviderBatch)
    (h : provider_unit_ok db p = true) :
    ∃ rows, (store_certs db p).store =
      { providers := db.providers ++ [⟨p.provider_name, p.trade_name, p.original_filename⟩],
        certificates := db.certificates ++ rows } := by
  unfold provider_unit_ok at h
  unfold store_certs
  by_cases h0 : p.dbFail 0
  · rw [if_pos h0] at h
    exact absurd h (by simp)
  · rw [if_neg h0] at h ⊢
    cases hl : storeCertsLoop p.dbFail (db.providers.length + 1) (enumFrom 1 p.certificates)
        { execIndex := 1, seen := ∅, warnings := [], rows := [] } with
    | none =>
        simp only [hl] at h
        exact absurd h (by simp)
    | some st =>
        simp only [hl] at h ⊢
        rw [Bool.not_eq_true'] at h
        exact ⟨st.rows, by rw [if_neg (by simp [h])]⟩

/-!
The claims.
-/

/-- C1, counterexample: on a container whose DER payload between the marker
and the delimiter contains the byte sequence Content-type, parse_certs does
not return the exact stripped payload bytes — the header rewrite performed
before splitting also rewrites this payload occurrence. -/
theorem C1_counterexample :
    bytesOf "Content-Type: application/pkix-cert\nABContent-typeCD--End" =
        bMarker ++ bytesOf "\nABContent-typeCD" ++ bEnd ∧
    parse_certs (bytesOf "Content-Type: application/pkix-cert\nABContent-typeCD--End") =
        [bytesOf "ABContent-TypeCD"] ∧
    stripBytes (bytesOf "\nABContent-typeCD") = bytesOf "ABContent-typeCD" ∧
    bytesOf "ABContent-TypeCD" ≠ bytesOf "ABContent-typeCD" :=
  ⟨by decide, by decide, by decide, by decide⟩

/-- C1 (amended): for every container, the emitted segment of each section is
the bytes after the first content-type marker of the rewritten section — that
is, the bytes between the marker and the next delimiter after every
occurrence of Content-type in them has been rewritten to Content-Type — with
only leading and trailing whitespace removed; and stripping removes only
whitespace bytes at the two ends. -/
theorem C1_split_payload :
    (∀ content : List Nat,
        parse_certs content = (splitOnSub bEnd content).filterMap emittedSegment) ∧
    (∀ l : List Nat, ∃ a b, l = a ++ stripBytes l ++ b ∧
        (∀ c ∈ a, isSpaceByte c = true) ∧ (∀ c ∈ b, isSpaceByte c = true)) :=
  ⟨parse_certs_eq_filterMap_emitted, mem_of_stripBytes_flank⟩

/-- C2, counterexample: a section containing the marker with the header
written Content-TYPE is not recognized (so not every letter casing of the
word type qualifies), and a section containing the canonical marker followed
only by whitespace yields no segment. -/
theorem C2_counterexample :
    containsSub (bytesOf "Content-TYPE: application/pkix-cert")
        (bytesOf "Content-TYPE: application/pkix-cert\nDATA--End") = true ∧
    parse_certs (bytesOf "Content-TYPE: application/pkix-cert\nDATA--End") = [] ∧
    containsSub bMarker (bytesOf "Content-Type: application/pkix-cert \t\n--End") = true ∧
    parse_certs (bytesOf "Content-Type: application/pkix-cert \t\n--End") = [] :=
  ⟨by decide, by decide, by decide, by decide⟩

/-- C2 (amended): a section qualifies and yields a DER segment exactly when
it contains the marker with the header name canonical (Content-Type) or in
the single all-lower-case variant (Content-type) — no other casing is
recognized — and the stripped payload after the marker is non-empty; both
recognized variants are treated identically. -/
theorem C2_qualification :
    (∀ sec : List Nat, sectionQualifies sec = qualifies_spec sec) ∧
    (∀ content : List Nat,
        parse_certs content =
          ((splitOnSub bEnd content).filter qualifies_spec).map sectionEmit) := by
  refine ⟨sectionQualifies_eq_qualifies_spec, ?_⟩
  intro content
  rw [parse_certs_eq_filter_map]
  congr 1
  exact List.filter_congr fun sec _ => sectionQualifies_eq_qualifies_spec sec

/-- C3: split of the empty container is the empty list (and split is a total
function, so it never errors); in general the segments are exactly the
emissions of the qualifying sections, in container order, so a container
with N qualifying sections yields exactly N segments. -/
theorem C3_split_counts :
    parse_certs [] = [] ∧
    (∀ content : List Nat,
        parse_certs content =
          ((splitOnSub bEnd content).filter sectionQualifies).map sectionEmit) ∧
    (∀ content : List Nat,
        (parse_certs content).length = (splitOnSub bEnd content).countP sectionQualifies) := by
  refine ⟨rfl, parse_certs_eq_filter_map, ?_⟩
  intro content
  rw [parse_certs_eq_filter_map, List.length_map, List.countP_eq_length_filter]

/-- C4: the normalized EC encoding starts with the byte 4 and has length
1 + 2 * ceil(curveBitSize / 8), for every curve bit size and point. -/
theorem C4_ec_encoding (name : String) (bits x y : Nat) (t f : String) (i : Option String)
    (b : List Nat)
    (h : get_public_key_info (PublicKey.ec name bits x y) = some (t, f, i, b)) :
    b.head? = some 4 ∧ b.length = 1 + 2 * ((bits + 7) / 8) := by
  simp only [get_public_key_info, Option.some.injEq, Prod.mk.injEq] at h
  obtain ⟨-, -, -, hb⟩ := h
  constructor
  · rw [← hb]; rfl
  · rw [← hb]
    simp [toBytesBE_length]
    omega

/-- C4 witness at the curve bit size 256 and the point (1, 2). -/
theorem C4_witness :
    ((4 : Nat) :: (toBytesBE 32 1 ++ toBytesBE 32 2)).head? = some 4 ∧
    ((4 : Nat) :: (toBytesBE 32 1 ++ toBytesBE 32 2)).length = 1 + 2 * ((256 + 7) / 8) :=
  C4_ec_encoding "secp256r1" 256 1 2 "EC" "SEC1" (some "secp256r1") _ rfl

/-- C5: the key normalizer returns exactly one of the four type and format
pairs, with the key info equal to the decimal key size for RSA, the curve
name for EC and absent for Ed25519 and Ed448, and fails exactly on the
unsupported key type. -/
theorem C5_normalize_contract (pk : PublicKey) :
    (get_public_key_info pk = none ↔ pk = PublicKey.unknown) ∧
    (∀ (t f : String) (i : Option String) (b : List Nat),
        get_public_key_info pk = some (t, f, i, b) →
          (∃ n spki, pk = PublicKey.rsa n spki ∧ t = "RSA" ∧ f = "SPKI" ∧
              i = some (toString n)) ∨
          (∃ c bits x y, pk = PublicKey.ec c bits x y ∧ t = "EC" ∧ f = "SEC1" ∧
              i = some c) ∨
          (∃ raw, pk = PublicKey.ed25519 raw ∧ t = "Ed25519" ∧ f = "RAW" ∧ i = none) ∨
          (∃ raw, pk = PublicKey.ed448 raw ∧ t = "Ed448" ∧ f = "RAW" ∧ i = none)) := by
  cases pk with
  | rsa n spki =>
      refine ⟨by simp [get_public_key_info], ?_⟩
      intro t f i b h
      simp only [get_public_key_info, Option.some.injEq, Prod.mk.injEq] at h
      exact Or.inl ⟨n, spki, rfl, h.1.symm, h.2.1.symm, h.2.2.1.symm⟩
  | ec c bits x y =>
      refine ⟨by simp [get_public_key_info], ?_⟩
      intro t f i b h
      simp only [get_public_key_info, Option.some.injEq, Prod.mk.injEq] at h
      exact Or.inr (Or.inl ⟨c, bits, x, y, rfl, h.1.symm, h.2.1.symm, h.2.2.1.symm⟩)
  | ed25519 raw =>
      refine ⟨by simp [get_public_key_info], ?_⟩
      intro t f i b h
      simp only [get_public_key_info, Option.some.injEq, Prod.mk.injEq] at h
      exact Or.inr (Or.inr (Or.inl ⟨raw, rfl, h.1.symm, h.2.1.symm, h.2.2.1.symm⟩))
  | ed448 raw =>
      refine ⟨by simp [get_public_key_info], ?_⟩
      intro t f i b h
      simp only [get_public_key_info, Option.some.injEq, Prod.mk.injEq] at h
      exact Or.inr (Or.inr (Or.inr ⟨raw, rfl, h.1.symm, h.2.1.symm, h.2.2.1.symm⟩))
  | unknown =>
      refine ⟨by simp [get_public_key_info], ?_⟩
      intro t f i b h
      simp [get_public_key_info] at h

/-- C5 witness at an RSA key of size 2048. -/
theorem C5_witness :
    (∃ n spki, (PublicKey.rsa 2048 [9] : PublicKey) = PublicKey.rsa n spki ∧
        "RSA" = "RSA" ∧ "SPKI" = "SPKI" ∧ (some "2048" : Option String) = some (toString n)) ∨
    (∃ c bits x y, (PublicKey.rsa 2048 [9] : PublicKey) = PublicKey.ec c bits x y ∧
        "RSA" = "EC" ∧ "SPKI" = "SEC1" ∧ (some "2048" : Option String) = some c) ∨
    (∃ raw, (PublicKey.rsa 2048 [9] : PublicKey) = PublicKey.ed25519 raw ∧
        "RSA" = "Ed25519" ∧ "SPKI" = "RAW" ∧ (some "2048" : Option String) = none) ∨
    (∃ raw, (PublicKey.rsa 2048 [9] : PublicKey) = PublicKey.ed448 raw ∧
        "RSA" = "Ed448" ∧ "SPKI" = "RAW" ∧ (some "2048" : Option String) = none) :=
  (C5_normalize_contract (PublicKey.rsa 2048 [9])).2 "RSA" "SPKI" (some "2048") [9] rfl

/-- C6: extraction fails on a certificate whose subject has no Common Name
attribute; and under a failure-free database the stored rows of a batch are
exactly one row per successfully parsed certificate, in order — a failing
certificate is dropped while every sibling is still processed. -/
theorem C6_skip_failed_certificates :
    (∀ (c : ParsedCert) (raw : List Nat), c.subject_common_names = [] →
        parse_certificate ⟨raw, some c⟩ = none) ∧
    (∀ (db : Store) (nm tn fn : String) (certs : List CertBlob),
        (store_certs db ⟨nm, tn, fn, certs, noFail⟩).store.certificates =
          db.certificates ++ certRows (db.providers.length + 1) (enumFrom 1 certs)) := by
  constructor
  · intro c raw hcn
    simp only [parse_certificate]
    cases hk : get_public_key_info c.public_key with
    | none => rfl
    | some val =>
        obtain ⟨t, f, i, b⟩ := val
        rw [hcn]
        rfl
  · intro db nm tn fn certs
    rw [store_certs_noFail]

/-- C6 witness: a certificate with an empty subject Common Name list fails. -/
theorem C6_witness :
    parse_certificate
      { raw := [7],
        decoded := some
          { public_key := .ed25519 [7], subject_common_names := [],
            issuer_common_names := ["issuer"], serial_number := 1,
            not_valid_before := 0, not_valid_after := 1 } } = none :=
  C6_skip_failed_certificates.1
    { public_key := .ed25519 [7], subject_common_names := [],
      issuer_common_names := ["issuer"], serial_number := 1,
      not_valid_before := 0, not_valid_after := 1 } [7] rfl

/-- C8: the inserts of one provider form a unit — if the unit hits a
database error, the store is left unchanged by that provider and the
provider loop continues with the remaining providers; if the unit commits,
the provider row and its certificate rows are appended together. -/
theorem C8_provider_unit (db : Store) (p : ProviderBatch) (rest : List ProviderBatch) :
    (provider_unit_ok db p = false →
        (store_certs db p).store = db ∧
        process_providers db (p :: rest) = process_providers db rest) ∧
    (provider_unit_ok db p = true →
        ∃ rows, (store_certs db p).store =
          { providers := db.providers ++ [⟨p.provider_name, p.trade_name, p.original_filename⟩],
            certificates := db.certificates ++ rows }) := by
  constructor
  · intro h
    refine ⟨store_certs_store_of_fail db p h, ?_⟩
    show process_providers (store_certs db p).store rest = _
    rw [store_certs_store_of_fail db p h]
  · exact store_certs_store_of_ok db p

/-- C8 witness: a provider unit whose every database call fails leaves the
empty store unchanged, and the provider loop carries on. -/
theorem C8_witness :
    (store_certs emptyStore ⟨"p", "t", "f", [], allFail⟩).store = emptyStore ∧
    process_providers emptyStore [⟨"p", "t", "f", [], allFail⟩] =
      process_providers emptyStore [] :=
  (C8_provider_unit emptyStore ⟨"p", "t", "f", [], allFail⟩ []).1 rfl

/-- C9: the stored serial number is the upper-case hexadecimal rendering of
the certificate serial: extraction stores toUpperHex of the integer serial;
255 renders as FF; the rendering of a positive serial never starts with the
digit 0 (no padding), and every character is an upper-case hexadecimal
digit, so no 0x prefix and no lower-case letters appear. -/
theorem C9_serial_format :
    (∀ (blob : CertBlob) (c : ParsedCert) (ki : KeyInfoDict) (cf : CertFields),
        blob.decoded = some c → parse_certificate blob = some (ki, cf) →
        cf.serial_number = toUpperHex c.serial_number) ∧
    toUpperHex 255 = "FF" ∧
    (∀ n : Nat, 0 < n → (toUpperHex n).data.head? ≠ some '0') ∧
    (∀ n : Nat, ∀ ch ∈ (toUpperHex n).data,
        ch ∈ ['0', '1', '2', '3', '4', '5', '6', '7', '8', '9',
          'A', 'B', 'C', 'D', 'E', 'F']) := by
  refine ⟨?_, toUpperHex_255, toUpperHex_head_ne_zero, toUpperHex_chars⟩
  intro blob c ki cf hdec hp
  simp only [parse_certificate, hdec] at hp
  cases hk : get_public_key_info c.public_key with
  | none => rw [hk] at hp; exact absurd hp (by simp)
  | some val =>
      obtain ⟨t, f, i, b⟩ := val
      rw [hk] at hp
      cases hs : c.subject_common_names.head? with
      | none => rw [hs] at hp; exact absurd hp (by simp)
      | some subj =>
          cases hi : c.issuer_common_names.head? with
          | none => rw [hs, hi] at hp; exact absurd hp (by simp)
          | some iss =>
              rw [hs, hi] at hp
              simp only [Option.some.injEq, Prod.mk.injEq] at hp
              rw [← hp.2]

/-- C9 witness at the sample certificate with integer serial 255. -/
theorem C9_witness :
    ({ subject_name := "subject", issuer_name := "issuer",
       serial_number := toUpperHex 255, not_valid_before := 0,
       not_valid_after := 1 } : CertFields).serial_number = toUpperHex 255 ∧
    (toUpperHex 255).data.head? ≠ some '0' :=
  ⟨C9_serial_format.1 (sampleBlob 3)
      { public_key := .ed25519 [3], subject_common_names := ["subject"],
        issuer_common_names := ["issuer"], serial_number := 255,
        not_valid_before := 0, not_valid_after := 1 } _ _ rfl rfl,
    C9_serial_format.2.2.1 255 (by norm_num)⟩

/-- C7: the duplicate tracker is purely observational — the final seen set
is the set of key hexes of the parsed batch, its size counts the distinct
canonical public keys, and in a fully parseable batch where exactly
positions 2 and 5 share a key, exactly one warning fires, at position 5,
the set has size batchSize - 1, and the duplicate is still inserted
(one stored row per certificate of the batch). -/
theorem C7_duplicate_tracker :
    (∀ (db : Store) (nm tn fn : String) (certs : List CertBlob),
        (store_certs db ⟨nm, tn, fn, certs, noFail⟩).seen = (certHexes certs).toFinset) ∧
    (∀ (db : Store) (nm tn fn : String) (certs : List CertBlob),
        (∀ k ∈ certKeys certs, ∀ x ∈ k, x < 256) →
        (store_certs db ⟨nm, tn, fn, certs, noFail⟩).seen.card =
          (certKeys certs).toFinset.card) ∧
    (∀ (db : Store) (nm tn fn : String) (b1 b2 b3 b4 b5 : CertBlob) (rest : List CertBlob)
        (p1 p2 p3 p4 p5 : KeyInfoDict × CertFields),
        parse_certificate b1 = some p1 → parse_certificate b2 = some p2 →
        parse_certificate b3 = some p3 → parse_certificate b4 = some p4 →
        parse_certificate b5 = some p5 →
        bytesHex p5.1.public_key = bytesHex p2.1.public_key →
        (bytesHex p1.1.public_key :: bytesHex p2.1.public_key :: bytesHex p3.1.public_key ::
            bytesHex p4.1.public_key :: certHexes rest).Nodup →
        (∀ b ∈ rest, (parse_certificate b).isSome = true) →
        (store_certs db ⟨nm, tn, fn, [b1, b2, b3, b4, b5] ++ rest, noFail⟩).warnings = [5] ∧
        (store_certs db ⟨nm, tn, fn, [b1, b2, b3, b4, b5] ++ rest, noFail⟩).seen.card =
          ([b1, b2, b3, b4, b5] ++ rest).length - 1 ∧
        (store_certs db ⟨nm, tn, fn, [b1, b2, b3, b4, b5] ++ rest,
            noFail⟩).store.certificates.length =
          db.certificates.length + ([b1, b2, b3, b4, b5] ++ rest).length) := by
  have part1 : ∀ (db : Store) (nm tn fn : String) (certs : List CertBlob),
      (store_certs db ⟨nm, tn, fn, certs, noFail⟩).seen = (certHexes certs).toFinset := by
    intro db nm tn fn certs
    rw [store_certs_noFail]
    show ((pairHexes (enumFrom 1 certs)).map Prod.snd).toFinset = _
    rw [pairHexes_map_snd]
  refine ⟨part1, ?_, ?_⟩
  · intro db nm tn fn certs hval
    rw [part1, certHexes_eq_map_bytesHex, list_toFinset_map]
    apply Finset.card_image_of_injOn
    intro k1 hk1 k2 hk2 heq
    have m1 : k1 ∈ certKeys certs := List.mem_toFinset.mp (Finset.mem_coe.mp hk1)
    have m2 : k2 ∈ certKeys certs := List.mem_toFinset.mp (Finset.mem_coe.mp hk2)
    exact bytesHex_inj k1 k2 (hval k1 m1) (hval k2 m2) heq
  · intro db nm tn fn b1 b2 b3 b4 b5 rest p1 p2 p3 p4 p5 hp1 hp2 hp3 hp4 hp5 hdup hnd hall
    have hndCopy := hnd
    set E1 := bytesHex p1.1.public_key with hE1
    set E2 := bytesHex p2.1.public_key with hE2
    set E3 := bytesHex p3.1.public_key with hE3
    set E4 := bytesHex p4.1.public_key with hE4
    set E5 := bytesHex p5.1.public_key with hE5
    obtain ⟨hn1, hnd2⟩ := List.nodup_cons.mp hnd
    obtain ⟨hn2, hnd3⟩ := List.nodup_cons.mp hnd2
    obtain ⟨hn3, hnd4⟩ := List.nodup_cons.mp hnd3
    obtain ⟨hn4, hndrest⟩ := List.nodup_cons.mp hnd4
    simp only [List.mem_cons, not_or] at hn1 hn2 hn3
    -- hn1 : E1 ≠ E2 ∧ E1 ≠ E3 ∧ E1 ≠ E4 ∧ E1 ∉ certHexes rest, and so on
    have hph : pairHexes (enumFrom 1 ([b1, b2, b3, b4, b5] ++ rest)) =
        (1, E1) :: (2, E2) :: (3, E3) :: (4, E4) :: (5, E5) :: pairHexes (enumFrom 6 rest) := by
      have s5 : pairHexes ((5, b5) :: enumFrom 6 rest) =
          (5, E5) :: pairHexes (enumFrom 6 rest) := by
        apply List.filterMap_cons_some
        simp [hp5, hE5]
      have s4 : pairHexes ((4, b4) :: (5, b5) :: enumFrom 6 rest) =
          (4, E4) :: pairHexes ((5, b5) :: enumFrom 6 rest) := by
        apply List.filterMap_cons_some
        simp [hp4, hE4]
      have s3 : pairHexes ((3, b3) :: (4, b4) :: (5, b5) :: enumFrom 6 rest) =
          (3, E3) :: pairHexes ((4, b4) :: (5, b5) :: enumFrom 6 rest) := by
        apply List.filterMap_cons_some
        simp [hp3, hE3]
      have s2 : pairHexes ((2, b2) :: (3, b3) :: (4, b4) :: (5, b5) :: enumFrom 6 rest) =
          (2, E2) :: pairHexes ((3, b3) :: (4, b4) :: (5, b5) :: enumFrom 6 rest) := by
        apply List.filterMap_cons_some
        simp [hp2, hE2]
      have s1 : pairHexes ((1, b1) :: (2, b2) :: (3, b3) :: (4, b4) :: (5, b5) ::
          enumFrom 6 rest) =
          (1, E1) :: pairHexes ((2, b2) :: (3, b3) :: (4, b4) :: (5, b5) :: enumFrom 6 rest) := by
        apply List.filterMap_cons_some
        simp [hp1, hE1]
      show pairHexes ((1, b1) :: (2, b2) :: (3, b3) :: (4, b4) :: (5, b5) ::
          enumFrom 6 rest) = _
      rw [s1, s2, s3, s4, s5]
    have hhex : certHexes ([b1, b2, b3, b4, b5] ++ rest) =
        E1 :: E2 :: E3 :: E4 :: E5 :: certHexes rest := by
      have t5 : certHexes (b5 :: rest) = E5 :: certHexes rest := by
        apply List.filterMap_cons_some
        simp [hp5, hE5]
      have t4 : certHexes (b4 :: b5 :: rest) = E4 :: certHexes (b5 :: rest) := by
        apply List.filterMap_cons_some
        simp [hp4, hE4]
      have t3 : certHexes (b3 :: b4 :: b5 :: rest) = E3 :: certHexes (b4 :: b5 :: rest) := by
        apply List.filterMap_cons_some
        simp [hp3, hE3]
      have t2 : certHexes (b2 :: b3 :: b4 :: b5 :: rest) =
          E2 :: certHexes (b3 :: b4 :: b5 :: rest) := by
        apply List.filterMap_cons_some
        simp [hp2, hE2]
      have t1 : certHexes (b1 :: b2 :: b3 :: b4 :: b5 :: rest) =
          E1 :: certHexes (b2 :: b3 :: b4 :: b5 :: rest) := by
        apply List.filterMap_cons_some
        simp [hp1, hE1]
      show certHexes (b1 :: b2 :: b3 :: b4 :: b5 :: rest) = _
      rw [t1, t2, t3, t4, t5]
    have hallb : ∀ b ∈ [b1, b2, b3, b4, b5] ++ rest, (parse_certificate b).isSome = true := by
      intro b hb
      rcases List.mem_append.mp hb with h | h
      · simp only [List.mem_cons, List.not_mem_nil, or_false] at h
        rcases h with h | h | h | h | h <;> subst h <;>
          simp [hp1, hp2, hp3, hp4, hp5]
      · exact hall b h
    refine ⟨?_, ?_, ?_⟩
    · -- warnings
      have hw : dupPositions ∅ (pairHexes (enumFrom 1 ([b1, b2, b3, b4, b5] ++ rest))) =
          [5] := by
        rw [hph, hdup]
        rw [dupPositions, if_neg (Finset.not_mem_empty E1)]
        rw [dupPositions, if_neg (by
          simp only [Finset.mem_insert, Finset.not_mem_empty, or_false]
          exact fun hm => hn1.1 hm.symm)]
        rw [dupPositions, if_neg (by
          simp only [Finset.mem_insert, Finset.not_mem_empty, or_false]
          push_neg
          exact ⟨fun hm => hn2.1 hm.symm, fun hm => hn1.2.1 hm.symm⟩)]
        rw [dupPositions, if_neg (by
          simp only [Finset.mem_insert, Finset.not_mem_empty, or_false]
          push_neg
          exact ⟨fun hm => hn3.1 hm.symm, fun hm => hn2.2.1 hm.symm,
            fun hm => hn1.2.2.1 hm.symm⟩)]
        rw [dupPositions, if_pos (by simp)]
        have hzero : dupPositions (insert E4 (insert E3 (insert E2 (insert E1 ∅))))
            (pairHexes (enumFrom 6 rest)) = [] := by
          apply dupPositions_nil_of_nodup
          · rw [pairHexes_map_snd]
            exact hndrest
          · intro q hq
            have hq2 : q.2 ∈ certHexes rest := by
              rw [← pairHexes_map_snd rest 6]
              exact List.mem_map.mpr ⟨q, hq, rfl⟩
            simp only [Finset.mem_insert, Finset.not_mem_empty, or_false]
            push_neg
            refine ⟨fun he => hn4 (he ▸ hq2), fun he => hn3.2 (he ▸ hq2),
              fun he => hn2.2.2 (he ▸ hq2), fun he => hn1.2.2.2 (he ▸ hq2)⟩
        rw [hzero]
      rw [store_certs_noFail]
      exact hw
    · -- seen set size
      have hcard1 : (store_certs db ⟨nm, tn, fn, [b1, b2, b3, b4, b5] ++ rest, noFail⟩).seen =
          (certHexes ([b1, b2, b3, b4, b5] ++ rest)).toFinset := part1 db nm tn fn _
      rw [hcard1, hhex, hdup]
      have hfin : (E1 :: E2 :: E3 :: E4 :: E2 :: certHexes rest).toFinset =
          (E1 :: E2 :: E3 :: E4 :: certHexes rest).toFinset := by
        ext a
        simp only [List.toFinset_cons, Finset.mem_insert]
        tauto
      rw [hfin, List.toFinset_card_of_nodup hndCopy]
      have hlr : (certHexes rest).length = rest.length := certHexes_length rest hall
      simp only [List.length_cons, List.length_append, List.length_nil, hlr]
      omega
    · -- rows
      rw [store_certs_noFail]
      show (db.certificates ++ certRows (db.providers.length + 1)
          (enumFrom 1 ([b1, b2, b3, b4, b5] ++ rest))).length = _
      rw [List.length_append, certRows_length _ _ hallb 1]

/-- C7 witness: a concrete five-certificate batch (Ed25519 keys) where
exactly positions 2 and 5 share a key. -/
theorem C7_witness :
    (store_certs emptyStore ⟨"p", "t", "f",
        [sampleBlob 1, sampleBlob 2, sampleBlob 3, sampleBlob 4, sampleBlob 2],
        noFail⟩).warnings = [5] ∧
    (store_certs emptyStore ⟨"p", "t", "f",
        [sampleBlob 1, sampleBlob 2, sampleBlob 3, sampleBlob 4, sampleBlob 2],
        noFail⟩).seen.card =
      ([sampleBlob 1, sampleBlob 2, sampleBlob 3, sampleBlob 4, sampleBlob 2] ++
        ([] : List CertBlob)).length - 1 ∧
    (store_certs emptyStore ⟨"p", "t", "f",
        [sampleBlob 1, sampleBlob 2, sampleBlob 3, sampleBlob 4, sampleBlob 2],
        noFail⟩).store.certificates.length =
      emptyStore.certificates.length +
        ([sampleBlob 1, sampleBlob 2, sampleBlob 3, sampleBlob 4, sampleBlob 2] ++
          ([] : List CertBlob)).length := by
  have h := C7_duplicate_tracker.2.2 emptyStore "p" "t" "f"
    (sampleBlob 1) (sampleBlob 2) (sampleBlob 3) (sampleBlob 4) (sampleBlob 2) []
    _ _ _ _ _ rfl rfl rfl rfl rfl rfl (by decide) (by intro b hb; cases hb)
  simpa using h

/-- C10: provider name extraction is total and falls back jointly — it
returns the looked-up pair exactly when both the name and the trade name
lookups succeed, and otherwise (either lookup failing, in particular a
missing optional trade name) replaces both values by the fallback pair,
discarding an available name. -/
theorem C10_provider_name (name_el trade_el : Option String) :
    (∃ n t, name_el = some n ∧ trade_el = some t ∧
        get_provider_name name_el trade_el = (n, t)) ∨
    ((name_el = none ∨ trade_el = none) ∧
        get_provider_name name_el trade_el = ("unknown_provider", "unknown_trade_name")) := by
  cases name_el with
  | none =>
      refine Or.inr ⟨Or.inl rfl, ?_⟩
      cases trade_el <;> rfl
  | some n =>
      cases trade_el with
      | none => exact Or.inr ⟨Or.inr rfl, rfl⟩
      | some t => exact Or.inl ⟨n, t, rfl, rfl, rfl⟩

end DlCerts
